import Mathlib

/-!
Verification of the cds2types emission core against its design specification.

The definitions below are a shallow embedding of the TypeScript sources:

* `src/array.util.ts` (two observed variants) — `last`, `takeRight`;
* `src/jsemitter.ts` — `ModuleQualifier` (`getNamespace`, `getDirectory`,
  `getAlias`, `getRelativePath`, `isLocalNamespace`), `splitNamespace`,
  `getTypeText`, `addOrAmendProperty`, `getImportPaths`, `getNames`,
  `resolve`, the property-type computation of `writeNamespace`, and the
  pluralisation helper `plural4`;
* `src/types/namespace.ts` — the ancestor-property merge performed by
  `Namespace.addEntityDeclarations`;
* the Node `path` module functions the emitter calls (`path.join`,
  `path.relative`, `path.normalize`), modelled for POSIX relative paths.

JavaScript strings are modelled as Lean `String`s (lists of characters);
`undefined` is modelled by `Option`; JavaScript array/string helpers that the
source uses (`split`, `join`, `slice`, `trim`, first-occurrence `replace`,
`Set` deduplication) are given explicit executable models.
-/

/-! ## JavaScript string primitives -/

/-- JS `str.split(sep)` for a single-character separator, on the character
list: splits at every occurrence of a character satisfying `p`, producing at
least one (possibly empty) segment, exactly like `"".split(".") == [""]`. -/
def splitPred (p : Char → Bool) : List Char → List (List Char)
  | [] => [[]]
  | c :: cs =>
    if p c then [] :: splitPred p cs
    else
      match splitPred p cs with
      | h :: t => (c :: h) :: t
      | [] => [[c]]

/-- JS `str.split(sep)` for a one-character string separator, on `String`. -/
def jsSplitChar (sep : Char) (s : String) : List String :=
  (splitPred (fun c => c = sep) s.data).map (fun l => ⟨l⟩)

/-- JS `Array.prototype.join(sep)` for a single-character glue, on character
lists: interleaves `sep` between the segments. -/
def joinSegs (sep : Char) : List (List Char) → List Char
  | [] => []
  | [x] => x
  | x :: y :: ys => x ++ sep :: joinSegs sep (y :: ys)

/-- JS `parts.join(sep)` on `String`s. -/
def joinWith (sep : Char) (parts : List String) : String :=
  ⟨joinSegs sep (parts.map (·.data))⟩

/-- JS `str.replace(pat, "")` for a one-character *string* pattern: removes
only the first occurrence (string patterns are not global in JS). -/
def removeFirstChar (c : Char) : List Char → List Char
  | [] => []
  | x :: xs => if x = c then xs else x :: removeFirstChar c xs

/-- Whitespace recognised by JS `String.prototype.trim` (the characters that
occur in this code base; the full JS class also has exotic Unicode spaces). -/
def jsWhitespace (c : Char) : Bool :=
  c = ' ' || c = '\t' || c = '\n' || c = '\r'

/-- JS `str.trim()`. -/
def jsTrim (s : String) : String :=
  ⟨((s.data.dropWhile jsWhitespace).reverse.dropWhile jsWhitespace).reverse⟩

/-- Truthiness of a JS `string | undefined`: `undefined` and `""` are falsy. -/
def jsTruthyStr : Option String → Bool
  | none => false
  | some s => s ≠ ""

/-- `[...new Set(l)]` on strings: deduplication keeping first occurrences in
insertion order. -/
def jsSetDedup (l : List String) : List String :=
  l.foldl (fun acc x => if x ∈ acc then acc else acc ++ [x]) []

/-- First-match association lookup, the JS object property access
`obj?.[key]` for the record-like objects of the compiled CSN. -/
def jsLookup {α : Type} (m : List (String × α)) (key : String) : Option α :=
  (m.find? (fun kv => kv.1 = key)).map (·.2)

/-! ## `src/array.util.ts` -/

/-- `export const last = <T>(xs: Array<T>): T => xs[xs.length - 1];`
JS out-of-range indexing yields `undefined`, modelled as `none`. -/
def last {α : Type} (xs : List α) : Option α :=
  let i : Int := (xs.length : Int) - 1
  if i < 0 then none else xs[i.toNat]?

/-- JS `xs.slice(start)` with a single (possibly negative) start index. -/
def jsSlice {α : Type} (xs : List α) (start : Int) : List α :=
  let len : Int := (xs.length : Int)
  let b : Int := if start < 0 then max (len + start) 0 else min start len
  xs.drop b.toNat

/-- Guarded variant:
`export const takeRight = <T>(xs, n) => n > 0 ? xs.slice(-n) : [];` -/
def takeRight {α : Type} (xs : List α) (n : Int) : List α :=
  if 0 < n then jsSlice xs (-n) else []

/-- Unguarded variant: `export const takeRight = <T>(xs, n) => xs.slice(-n);` -/
def takeRightUnguarded {α : Type} (xs : List α) (n : Int) : List α :=
  jsSlice xs (-n)

/-! ## Inheritance-flattening property merges -/

/-- One property of a `ts-morph` class/interface declaration structure, as the
flattening code reads it: a name and the textual type. -/
structure PropDecl where
  name : String
  type : String
deriving DecidableEq, Repr

/-- JS `existing.type.split(" | ")` — splitting on the three-character union
separator string, scanning left to right. -/
def splitUnionSep : List Char → List (List Char)
  | ' ' :: '|' :: ' ' :: rest => [] :: splitUnionSep rest
  | c :: rest =>
    match splitUnionSep rest with
    | h :: t => (c :: h) :: t
    | [] => [[c]]
  | [] => [[]]

/-- The ancestor-property merge of `Namespace.addEntityDeclarations`
(`src/types/namespace.ts`): if the class has no property of that name, push a
copy; otherwise unconditionally append `" | " ++ h.type` to the first
matching property's type (there is no duplicate check in this variant). -/
def mergeHeirloom : List PropDecl → PropDecl → List PropDecl
  | [], h => [h]
  | p :: ps, h =>
    if p.name = h.name then { p with type := p.type ++ " | " ++ h.type } :: ps
    else p :: mergeHeirloom ps h

/-- Merging a whole ancestor property list (`heirlooms.forEach`). -/
def mergeHeirlooms (props heirlooms : List PropDecl) : List PropDecl :=
  heirlooms.foldl mergeHeirloom props

/-- `addOrAmendProperty` of `src/jsemitter.ts`: like `mergeHeirloom`, but the
type is only widened when the incoming type text is not already one of the
`" | "`-separated branches of the existing type. -/
def addOrAmendProperty : List PropDecl → PropDecl → List PropDecl
  | [], prop => [prop]
  | p :: ps, prop =>
    if p.name = prop.name then
      if (splitUnionSep p.type.data).contains prop.type.data then p :: ps
      else { p with type := p.type ++ " | " ++ prop.type } :: ps
    else p :: addOrAmendProperty ps prop

/-! ## Node `path` model (POSIX, relative paths)

The emitter only ever passes relative, slash-separated paths built from
namespace names to `path.join` and `path.relative`.  The model below resolves
such paths to their segment lists (mirroring how `path.resolve` against a
fixed working directory cancels out of `path.relative`) and rebuilds the
textual results the way the POSIX implementations do. -/

/-- Resolve path segments: drop empty and `"."` segments, pop on `".."`
(at the filesystem root, popping an empty stack is a no-op, as for a working
directory of `/`). -/
def resolveSegs : List String → List String → List String
  | acc, [] => acc
  | acc, seg :: rest =>
    if seg = "" ∨ seg = "." then resolveSegs acc rest
    else if seg = ".." then resolveSegs acc.dropLast rest
    else resolveSegs (acc ++ [seg]) rest

/-- The fully resolved segment list of a relative path string. -/
def segResolve (p : String) : List String :=
  resolveSegs [] (jsSplitChar '/' p)

/-- Normalisation pass of `path.normalize` on the segments of a relative
path: empty and `"."` segments vanish, `".."` pops unless nothing poppable
remains, in which case it is kept. -/
def normSegsGo : List String → List String → List String
  | acc, [] => acc
  | acc, seg :: rest =>
    if seg = "" ∨ seg = "." then normSegsGo acc rest
    else if seg = ".." then
      match acc.getLast? with
      | some prev =>
        if prev = ".." then normSegsGo (acc ++ [".."]) rest
        else normSegsGo acc.dropLast rest
      | none => normSegsGo (acc ++ [".."]) rest
    else normSegsGo (acc ++ [seg]) rest

/-- `path.normalize` for a relative POSIX path without trailing slash. -/
def pathNormalize (p : String) : String :=
  let segs := normSegsGo [] (jsSplitChar '/' p)
  if segs = [] then "." else joinWith '/' segs

/-- `path.join(...parts)`: concatenate the non-empty parts with `"/"` and
normalise; the empty join yields `"."`. -/
def pathJoin (parts : List String) : String :=
  let joined := joinWith '/' (parts.filter (fun s => s ≠ ""))
  if joined = "" then "." else pathNormalize joined

/-- Length of the common prefix of two segment lists. -/
def commonPrefixLen : List String → List String → Nat
  | a :: as, b :: bs => if a = b then commonPrefixLen as bs + 1 else 0
  | _, _ => 0

/-- `path.relative(f, t)` for relative POSIX paths: resolve both, drop the
common prefix, then climb with `".."` and descend into the remainder. -/
def pathRelative (f t : String) : String :=
  let fs := segResolve f
  let ts := segResolve t
  let k := commonPrefixLen fs ts
  joinWith '/' (List.replicate (fs.length - k) ".." ++ ts.drop k)

/-! ## `ModuleQualifier` and helpers (`src/jsemitter.ts`) -/

/-- Placeholder name of the unnamed top-level namespace. -/
def ROOT_NAMESPACE_NAME : String := "$ROOT$"

/-- `splitNamespace("foo.bar.A") == ["foo.bar", "A"]`: all but the final
dot-separated token, and the final token. -/
def splitNamespace (fqName : String) : String × String :=
  let tokens := jsSplitChar '.' fqName
  (joinWith '.' tokens.dropLast, (tokens.getLast?).getD "")

/-- `ModuleQualifier`: a namespace (`module`), optionally a class inside it,
and the collection flag. -/
structure ModuleQualifier where
  module : String
  clazz : Option String
  nonScalar : Bool
deriving DecidableEq, Repr

/-- The `ModuleQualifier` constructor: with `containsClass` the final path
token is split off as the class name. -/
def mkQualifier (path : String) (containsClass : Bool) (nonScalar : Bool) :
    ModuleQualifier :=
  if containsClass then
    ⟨(splitNamespace path).1, some (splitNamespace path).2, nonScalar⟩
  else ⟨path, none, nonScalar⟩

/-- `/\./g`-replacement of dots by slashes (a global single-character regex
replace is a character map). -/
def dotToSlash (c : Char) : Char := if c = '.' then '/' else c

/-- `getDirectory()`: the namespace with path separators instead of dots. -/
def ModuleQualifier.getDirectory (q : ModuleQualifier) : String :=
  ⟨q.module.data.map dotToSlash⟩

/-- `/\./g`-replacement of dots by underscores. -/
def dotToUnderscore (c : Char) : Char := if c = '.' then '_' else c

/-- `getAlias()`: `"_" ++` the namespace with underscores for dots, joined
with the class name by `"."` when present (falsy components are filtered). -/
def ModuleQualifier.getAlias (q : ModuleQualifier) : String :=
  joinWith '.'
    (((("_" ++ (⟨q.module.data.map dotToUnderscore⟩ : String)) ::
        (match q.clazz with | some c => [c] | none => [])).filter
      (fun s => s ≠ "")))

/-- `getRelativePath(rel)`: `path.relative(rel, this.getDirectory())`. -/
def ModuleQualifier.getRelativePath (q : ModuleQualifier) (rel : String) :
    String :=
  pathRelative rel q.getDirectory

/-- `isLocalNamespace(rel)`: the relative path is empty. -/
def ModuleQualifier.isLocalNamespace (q : ModuleQualifier) (rel : String) :
    Bool :=
  q.getRelativePath rel = ""

/-! ## CSN model, `resolve`, `getNames`, `plural4` (`src/jsemitter.ts`) -/

/-- One element (property) of a CSN definition as `resolve` reads it: the
optional association `target`, the optional `type`, and whether a
`cardinality` object is present (truthy). -/
structure Element where
  target : Option String
  type : Option String
  cardinality : Bool
deriving DecidableEq, Repr

/-- One CSN definition as `resolve`/`getNames` read it: its elements and the
values of the `["@singular"]["="]` / `["@plural"]["="]` annotations. -/
structure Definition where
  elements : List (String × Element)
  annSingular : Option String
  annPlural : Option String
deriving DecidableEq, Repr

/-- The CSN context: the `definitions` mapping (optional chaining over an
absent `definitions` object behaves like the empty mapping). -/
structure CSN where
  definitions : List (String × Definition)
deriving DecidableEq, Repr

/-- The element looked up by `resolve`:
`cson?.definitions?.[fqEntity]?.["elements"]?.[propName]`. -/
def lookupElement (cson : CSN) (fqEntity propName : String) : Option Element :=
  (jsLookup cson.definitions fqEntity).bind fun d => jsLookup d.elements propName

/-- `resolve(fqEntity, propName, cson)`: `undefined` for the reserved
`texts`/`localized` property names and when the element's `target` is falsy;
otherwise a class-splitting qualifier on `target ?? type` carrying the
cardinality flag. -/
def resolve (fqEntity propName : String) (cson : CSN) :
    Option ModuleQualifier :=
  let element := lookupElement cson fqEntity propName
  if propName = "texts" ∨ propName = "localized"
      ∨ jsTruthyStr (element.bind Element.target) = false then none
  else
    some (mkQualifier
      ((element.bind Element.target).getD ((element.bind Element.type).getD ""))
      true
      ((element.map Element.cardinality).getD false))

/-- `getNames(entityName, cson, namespace)`: the annotated names if present,
else the entity name and the entity name suffixed with `Many`.  NOTE: the
source reads the `@singular` annotation for *both* components
(`src/jsemitter.ts:370-371`). -/
def getNames (entityName : String) (cson : CSN) (nspace : Option String) :
    String × String :=
  let fq := (nspace.getD "") ++ "." ++ entityName
  let singularAnn := (jsLookup cson.definitions fq).bind Definition.annSingular
  let pluralAnn := (jsLookup cson.definitions fq).bind Definition.annSingular
  (singularAnn.getD entityName, pluralAnn.getD (entityName ++ "Many"))

/-- Lowercase the characters of a string (for the `i` regex flag). -/
def lowerData (s : String) : List Char := s.data.map Char.toLower

/-- Substring search: JS unanchored `RegExp.test` for a literal pattern. -/
def hasInfixSeq (needle : List Char) : List Char → Bool
  | [] => needle.isEmpty
  | c :: cs => needle.isPrefixOf (c :: cs) || hasInfixSeq needle cs

/-- `/.*analysis|status|species|news$/i.test(n)`: by alternation precedence,
this is `contains "analysis"`, or `contains "status"`, or
`contains "species"`, or `endsWith "news"`, all case-insensitively. -/
def pluralExceptionTest (n : String) : Bool :=
  hasInfixSeq "analysis".data (lowerData n)
    || hasInfixSeq "status".data (lowerData n)
    || hasInfixSeq "species".data (lowerData n)
    || "news".data.isSuffixOf (lowerData n)

/-- The lowercase vowels of the `[^aeiou]` character class (no `i` flag: the
class excludes only lowercase vowels). -/
def isLowerVowel (c : Char) : Bool :=
  c = 'a' || c = 'e' || c = 'i' || c = 'o' || c = 'u'

/-- `/.*[^aeiou]y$/.test(n)`: ends in `y` preceded by a non-vowel. -/
def endsConsonantY (n : String) : Bool :=
  match n.data.reverse with
  | 'y' :: c :: _ => !(isLowerVowel c)
  | _ => false

/-- `/.*(s|x|z|ch|sh)$/.test(n)`. -/
def endsSibilant (n : String) : Bool :=
  match n.data.reverse with
  | 's' :: _ => true
  | 'x' :: _ => true
  | 'z' :: _ => true
  | 'h' :: 'c' :: _ => true
  | 'h' :: 's' :: _ => true
  | _ => false

/-- `/\w+$/`-match used by the `stripped` mode of the inflection helpers:
the final run of word characters. -/
def isWordChar (c : Char) : Bool :=
  c.isAlphanum || c = '_'

/-- The final word of a string (where the source would throw on a string not
ending in a word character, this returns `""`; the claims never take that
branch). -/
def lastWord (s : String) : String :=
  ⟨(s.data.reverse.takeWhile isWordChar).reverse⟩

/-- The regex cascade of `plural4` after the annotation check. -/
def plural4core (n : String) : String :=
  if pluralExceptionTest n then n
  else if endsConsonantY n then (⟨n.data.dropLast⟩ : String) ++ "ies"
  else if endsSibilant n then n ++ "es"
  else n ++ "s"

/-- `plural4(dn, stripped)` where `dn` carries a name and possibly a
`@plural` annotation; a falsy (absent or empty) annotation falls through to
the heuristic. -/
def plural4 (annPlural : Option String) (name : String) (stripped : Bool) :
    String :=
  let n := if stripped then lastWord name else name
  match annPlural with
  | some a => if a = "" then plural4core n else a
  | none => plural4core n

/-! ## `getTypeText` and the emitted property type (`src/jsemitter.ts`) -/

/-- The `[:=]` character class of the textual-type fallback. -/
def isSepChar (c : Char) : Bool := c = ':' || c = '='

/-- `.slice(-1).join("")`: the final segment of a split (the split is never
empty, and `[""].join("") = ""` covers the impossible case). -/
def lastSeg : List (List Char) → List Char
  | [] => []
  | [x] => x
  | _ :: y :: ys => lastSeg (y :: ys)

/-- The textual fallback of `getTypeText`:
`p.getText().replace(";", "").split(/[:=]/).slice(-1).join("").trim()`. -/
def textDerivedType (text : String) : String :=
  jsTrim ⟨lastSeg (splitPred isSepChar (removeFirstChar ';' text.data))⟩

/-- `getTypeText(p)` with the structural type read modelled as an
`Option String` (`none` when `p.getType().getText()` throws): falsy results
(exceptions and the empty string) fall back to the textual derivation. -/
def getTypeText (structural : Option String) (declText : String) : String :=
  match structural with
  | some r => if r = "" then textDerivedType declText else r
  | none => textDerivedType declText

/-- The derivation in the words of the specification: the part after the
*first* `:`/`=` of the declaration text (after removing the first `;`),
trimmed.  Stated only for comparison with `textDerivedType`. -/
def specFirstSplitType (text : String) : String :=
  jsTrim ⟨((removeFirstChar ';' text.data).dropWhile
      (fun c => !(isSepChar c))).drop 1⟩

/-- Number of `[:=]` separators in the processed declaration text. -/
def sepCount (text : String) : Nat :=
  ((removeFirstChar ';' text.data).filter isSepChar).length

/-- The property-type expression of `writeNamespace`
(`src/jsemitter.ts:422-438`): resolve the property; a local qualifier prints
its class name, a foreign one its alias, an unresolved one the declaration's
type text; a to-many association appends `[]`. -/
def emittedPropertyType (nsmq : ModuleQualifier) (fqEntity propName : String)
    (cson : CSN) (typeText : String) : String :=
  let pns := resolve fqEntity propName cson
  let suffix :=
    if (match pns with | some q => q.nonScalar | none => false) then "[]" else ""
  ((match pns with
    | some q =>
      if q.module = nsmq.module then q.clazz else some q.getAlias
    | none => none).getD typeText) ++ suffix

/-! ## `getImportPaths` (`src/jsemitter.ts`) -/

/-- The shape of a `ts-morph` interface as `getImportPaths` reads it: its
name, the texts of its extends-clauses, and its property names. -/
structure Iface where
  name : String
  extendsTexts : List String
  propNames : List String

/-- The raw namespace strings collected per interface: namespaces of the
non-empty extends texts, then the namespaces of the resolvable properties. -/
def collectNamespaces (nsName : String) (ifaces : List Iface) (cson : CSN) :
    List String :=
  (ifaces.map (fun i =>
      ((i.extendsTexts.filter (fun e => e ≠ "")).map
          (fun e => (splitNamespace e).1))
        ++ ((i.propNames.filterMap
              (fun pn => resolve (nsName ++ "." ++ i.name) pn cson)).map
            ModuleQualifier.module))).foldl (· ++ ·) []

/-- `getImportPaths(ns, rel, source, cson)`: deduplicate the collected
namespace strings via a `Set`, wrap each as a plain `ModuleQualifier`, and
drop those local to `rel`. -/
def getImportPaths (nsName rel : String) (ifaces : List Iface) (cson : CSN) :
    List ModuleQualifier :=
  (((jsSetDedup (collectNamespaces nsName ifaces cson)).map
      (fun p => mkQualifier p false false)).filter
    (fun q => !(q.isLocalNamespace rel)))

/-! ## Theorems -/

/-- C1: the claim asserts that the flattening merge is idempotent and never
accumulates duplicate union branches.  The `addEntityDeclarations` merge
(`src/types/namespace.ts`) appends unconditionally, so a property inherited
with a type identical to the descendant's is still widened (to `"A | A"`) and
a repeated merge widens again; the `addOrAmendProperty` merge
(`src/jsemitter.ts`) deduplicates whole type texts but not union branches, so
an inherited property whose type text is itself the union `"A | B"` is
re-appended on every merge.  Both computations are exhibited here. -/
theorem flattening_merge_not_idempotent :
    mergeHeirlooms [⟨"x", "A"⟩] [⟨"x", "A"⟩] = [⟨"x", "A | A"⟩]
    ∧ mergeHeirlooms (mergeHeirlooms [⟨"x", "A"⟩] [⟨"x", "A"⟩]) [⟨"x", "A"⟩]
        ≠ mergeHeirlooms [⟨"x", "A"⟩] [⟨"x", "A"⟩]
    ∧ addOrAmendProperty (addOrAmendProperty [⟨"x", "A | B"⟩] ⟨"x", "A | B"⟩) ⟨"x", "A | B"⟩
        ≠ addOrAmendProperty [⟨"x", "A | B"⟩] ⟨"x", "A | B"⟩ := by
  refine ⟨by decide, by decide, by decide⟩

/-- Indexing a cons cell at the length of its tail reads the last element. -/
theorem getElem?_length_tail {α : Type} (x : α) (xs : List α) :
    (x :: xs)[xs.length]? = (x :: xs).getLast? := by
  induction xs generalizing x with
  | nil => simp
  | cons y ys ih =>
    rw [List.length_cons, List.getElem?_cons_succ, ih y, List.getLast?_cons_cons]

/-- A split always produces at least one segment. -/
theorem splitPred_ne_nil (p : Char → Bool) (cs : List Char) :
    splitPred p cs ≠ [] := by
  induction cs with
  | nil => simp [splitPred]
  | cons c cs ih =>
    simp only [splitPred]
    by_cases h : p c
    · simp [h]
    · simp only [h, Bool.false_eq_true, if_false]
      rcases hs : splitPred p cs with _ | ⟨a, t⟩
      · simp
      · simp

/-- A split has one more segment than there are separators. -/
theorem splitPred_length (p : Char → Bool) (cs : List Char) :
    (splitPred p cs).length = (cs.filter p).length + 1 := by
  induction cs with
  | nil => rfl
  | cons c cs ih =>
    by_cases h : p c
    · simp [splitPred, h, List.filter_cons, ih]
    · rcases hs : splitPred p cs with _ | ⟨a, t⟩
      · exact absurd hs (splitPred_ne_nil p cs)
      · rw [hs] at ih
        simp only [splitPred, h, Bool.false_eq_true, if_false, hs,
          List.filter_cons, List.length_cons] at ih ⊢
        omega

/-- Splitting a separator-free list gives back the singleton. -/
theorem splitPred_no_sep (p : Char → Bool) (cs : List Char)
    (h : ∀ c ∈ cs, p c = false) : splitPred p cs = [cs] := by
  induction cs with
  | nil => rfl
  | cons c cs ih =>
    have hc : p c = false := h c (List.mem_cons_self _ _)
    have hrest := ih fun x hx => h x (List.mem_cons_of_mem _ hx)
    simp [splitPred, hc, hrest]

/-- Segments produced by a split contain no separator. -/
theorem splitPred_sep_free (p : Char → Bool) :
    ∀ (cs : List Char), ∀ l ∈ splitPred p cs, ∀ c ∈ l, p c = false := by
  intro cs
  induction cs with
  | nil =>
    intro l hl c hc
    simp only [splitPred, List.mem_singleton] at hl
    subst hl
    simp at hc
  | cons x xs ih =>
    intro l hl c hc
    by_cases hx : p x
    · simp only [splitPred, hx, if_true, List.mem_cons] at hl
      rcases hl with hl | hl
      · subst hl; simp at hc
      · exact ih l hl c hc
    · rcases hs : splitPred p xs with _ | ⟨a, t⟩
      · exact absurd hs (splitPred_ne_nil p xs)
      · simp only [splitPred, hx, Bool.false_eq_true, if_false, hs,
          List.mem_cons] at hl
        rcases hl with hl | hl
        · subst hl
          rcases List.mem_cons.mp hc with hc2 | hc2
          · subst hc2; simpa using hx
          · exact ih a (by rw [hs]; exact List.mem_cons_self _ _) c hc2
        · exact ih l (by rw [hs]; exact List.mem_cons_of_mem _ hl) c hc

/-- Characters of split segments come from the split input. -/
theorem splitPred_chars_sub (p : Char → Bool) :
    ∀ (cs : List Char), ∀ l ∈ splitPred p cs, ∀ c ∈ l, c ∈ cs := by
  intro cs
  induction cs with
  | nil =>
    intro l hl c hc
    simp only [splitPred, List.mem_singleton] at hl
    subst hl
    simp at hc
  | cons x xs ih =>
    intro l hl c hc
    by_cases hx : p x
    · simp only [splitPred, hx, if_true, List.mem_cons] at hl
      rcases hl with hl | hl
      · subst hl; simp at hc
      · exact List.mem_cons_of_mem _ (ih l hl c hc)
    · rcases hs : splitPred p xs with _ | ⟨a, t⟩
      · exact absurd hs (splitPred_ne_nil p xs)
      · simp only [splitPred, hx, Bool.false_eq_true, if_false, hs,
          List.mem_cons] at hl
        rcases hl with hl | hl
        · subst hl
          rcases List.mem_cons.mp hc with hc2 | hc2
          · subst hc2; exact List.mem_cons_self _ _
          · exact List.mem_cons_of_mem _
              (ih a (by rw [hs]; exact List.mem_cons_self _ _) c hc2)
        · exact List.mem_cons_of_mem _
            (ih l (by rw [hs]; exact List.mem_cons_of_mem _ hl) c hc)

/-- Splitting a list with the separator right after a separator-free chunk
peels off exactly that chunk. -/
theorem splitPred_append_sep (sep : Char) (x rest : List Char)
    (hx : ∀ c ∈ x, c ≠ sep) :
    splitPred (fun c => c = sep) (x ++ sep :: rest)
      = x :: splitPred (fun c => c = sep) rest := by
  induction x with
  | nil => simp [splitPred]
  | cons c cs ih =>
    have hc : c ≠ sep := hx c (List.mem_cons_self _ _)
    have ih2 := ih fun a ha => hx a (List.mem_cons_of_mem _ ha)
    simp only [List.cons_append, splitPred, hc]
    simp [hc, ih2]

/-- Splitting undoes joining for non-empty segment lists whose segments are
free of the separator. -/
theorem splitPred_joinSegs (sep : Char) :
    ∀ (xss : List (List Char)), xss ≠ [] →
      (∀ l ∈ xss, ∀ c ∈ l, c ≠ sep) →
      splitPred (fun c => c = sep) (joinSegs sep xss) = xss
  | [], h, _ => absurd rfl h
  | [x], _, hfree => by
    rw [joinSegs]
    apply splitPred_no_sep
    intro c hc
    simpa using hfree x (List.mem_singleton.mpr rfl) c hc
  | x :: y :: ys, _, hfree => by
    rw [joinSegs, splitPred_append_sep sep x _ (hfree x (List.mem_cons_self _ _))]
    rw [splitPred_joinSegs sep (y :: ys) (by simp)
      (fun l hl => hfree l (List.mem_cons_of_mem _ hl))]

/-- `jsSplitChar` undoes `joinWith` on non-empty separator-free parts. -/
theorem jsSplitChar_joinWith (sep : Char) (parts : List String)
    (hne : parts ≠ []) (hfree : ∀ s ∈ parts, ∀ c ∈ s.data, c ≠ sep) :
    jsSplitChar sep (joinWith sep parts) = parts := by
  unfold jsSplitChar joinWith
  rw [splitPred_joinSegs sep (parts.map fun s => s.data) (by simpa using hne) ?hf]
  · rw [List.map_map]
    have hid : ((fun l => (⟨l⟩ : String)) ∘ fun s => s.data) = id :=
      funext fun s => rfl
    rw [hid, List.map_id]
  case hf =>
    intro l hl c hc
    obtain ⟨s, hs, rfl⟩ := List.mem_map.mp hl
    exact hfree s hs c hc

/-- Resolving segments that are neither `"."` nor `".."` just appends the
non-empty ones. -/
theorem resolveSegs_no_special :
    ∀ (segs : List String), (∀ s ∈ segs, s ≠ "." ∧ s ≠ "..") →
      ∀ acc, resolveSegs acc segs = acc ++ segs.filter (fun s => s ≠ "") := by
  intro segs
  induction segs with
  | nil => intro _ acc; simp [resolveSegs]
  | cons x xs ih =>
    intro h acc
    obtain ⟨hdot, hdots⟩ := h x (List.mem_cons_self _ _)
    have ih2 := ih fun s hs => h s (List.mem_cons_of_mem _ hs)
    by_cases hx : x = ""
    · subst hx
      simp [resolveSegs, List.filter_cons, ih2]
    · rw [resolveSegs]
      simp only [hx, hdot, or_self, or_false, if_false, hdots, List.filter_cons]
      rw [ih2 (acc ++ [x])]
      simp [hx]

/-- Normalising segments that are plain names just appends them. -/
theorem normSegsGo_plain :
    ∀ (segs : List String), (∀ s ∈ segs, s ≠ "" ∧ s ≠ "." ∧ s ≠ "..") →
      ∀ acc, normSegsGo acc segs = acc ++ segs := by
  intro segs
  induction segs with
  | nil => intro _ acc; simp [normSegsGo]
  | cons x xs ih =>
    intro h acc
    obtain ⟨hx, hdot, hdots⟩ := h x (List.mem_cons_self _ _)
    have ih2 := ih fun s hs => h s (List.mem_cons_of_mem _ hs)
    rw [normSegsGo]
    simp only [hx, hdot, or_self, or_false, if_false, hdots]
    rw [ih2 (acc ++ [x])]
    simp

/-- C2: the failing input for the annotation round-trip.  The definition of
`ns.Foo` carries both `@singular: "Person"` and `@plural: "People"`, yet
`getNames` returns `"Person"` for *both* components, because line 371 of
`src/jsemitter.ts` reads the `@singular` annotation into `pluralAnnotation`. -/
theorem getNames_plural_reads_singular_key :
    getNames "Foo" ⟨[("ns.Foo", ⟨[], some "Person", some "People"⟩)]⟩ (some "ns")
      = ("Person", "Person")
    ∧ ("Person" : String) ≠ "People" :=
  ⟨by decide, by decide⟩

/-- C3 counterexample: for an entity without annotations the plural returned
by `getNames` is the entity name suffixed with `Many`, not the forward
heuristic's result. -/
theorem getNames_plural_heuristic_counterexample :
    (getNames "Category" ⟨[]⟩ (some "ns")).2 = "CategoryMany"
    ∧ ("CategoryMany" : String) ≠ "Categories" :=
  ⟨by decide, by decide⟩

/-- C3 amended: without annotations `getNames` derives the plural as
`entityName ++ "Many"`; the forward heuristic lives in the (uncalled) helper
`plural4`, which does map `"Category"` to `"Categories"` and `"Address"` to
`"Addresses"`. -/
theorem getNames_many_fallback_and_plural4 (entityName : String)
    (nspace : Option String) :
    (getNames entityName ⟨[]⟩ nspace).2 = entityName ++ "Many"
    ∧ plural4 none "Category" false = "Categories"
    ∧ plural4 none "Address" false = "Addresses" := by
  refine ⟨?_, by decide, by decide⟩
  simp [getNames, jsLookup]

/-- C4 counterexample: `getAlias` is not injective on all distinct namespace
paths — a dot and an underscore collapse to the same alias character. -/
theorem getAlias_collision :
    ("a.b" : String) ≠ "a_b"
    ∧ (mkQualifier "a.b" false false).getAlias
        = (mkQualifier "a_b" false false).getAlias :=
  ⟨by decide, by decide⟩

/-- The class-free alias evaluates to an underscore followed by the
dot-to-underscore image of the namespace. -/
theorem getAlias_no_class (p : String) :
    (mkQualifier p false false).getAlias
      = "_" ++ (⟨p.data.map dotToUnderscore⟩ : String) := by
  have hne : ("_" ++ (⟨p.data.map dotToUnderscore⟩ : String)) ≠ "" := by
    intro h
    have := congrArg String.data h
    simp [String.data_append] at this
  simp [mkQualifier, ModuleQualifier.getAlias, hne, joinWith, joinSegs]
  exact String.ext (by simp [String.data_append])

/-- Mapping underscores back to dots undoes `dotToUnderscore` on
underscore-free character lists. -/
theorem map_underscore_cancel :
    ∀ (l : List Char), (∀ c ∈ l, c ≠ '_') →
      (l.map dotToUnderscore).map (fun c => if c = '_' then '.' else c) = l
  | [], _ => rfl
  | c :: cs, h => by
    simp only [List.map_cons, List.cons.injEq]
    refine ⟨?_, map_underscore_cancel cs (fun x hx => h x (List.mem_cons_of_mem _ hx))⟩
    have hc : c ≠ '_' := h c (List.mem_cons_self _ _)
    by_cases hdot : c = '.'
    · subst hdot; simp [dotToUnderscore]
    · simp [dotToUnderscore, hdot, hc]

/-- C4 amended: `getAlias` is injective on namespace paths whose segments
contain no underscore (the collision above forces this restriction), and the
root/unnamed namespace still receives the non-empty alias `"_"`. -/
theorem getAlias_injective (p1 p2 : String)
    (h1 : ∀ c ∈ p1.data, c ≠ '_') (h2 : ∀ c ∈ p2.data, c ≠ '_')
    (hne : p1 ≠ p2) :
    (mkQualifier p1 false false).getAlias ≠ (mkQualifier p2 false false).getAlias
    ∧ (mkQualifier "" false false).getAlias ≠ "" := by
  refine ⟨?_, by decide⟩
  intro heq
  apply hne
  rw [getAlias_no_class, getAlias_no_class] at heq
  have hdata := congrArg String.data heq
  simp only [String.data_append] at hdata
  have hmap : p1.data.map dotToUnderscore = p2.data.map dotToUnderscore := by
    simpa using hdata
  have hcancel := congrArg (List.map (fun c => if c = '_' then '.' else c)) hmap
  rw [map_underscore_cancel p1.data h1, map_underscore_cancel p2.data h2] at hcancel
  exact String.ext hcancel

/-- C4 witness: the amended statement applied at concrete underscore-free
paths. -/
theorem getAlias_injective_witness :
    (mkQualifier "foo.bar" false false).getAlias
        ≠ (mkQualifier "foo.baz" false false).getAlias
    ∧ (mkQualifier "" false false).getAlias ≠ "" :=
  getAlias_injective "foo.bar" "foo.baz" (by decide) (by decide) (by decide)

/-- The common prefix of a segment list with itself is the whole list. -/
theorem commonPrefixLen_self (l : List String) :
    commonPrefixLen l l = l.length := by
  induction l with
  | nil => rfl
  | cons a as ih => simp [commonPrefixLen, ih]

/-- `path.relative` of any path to itself is empty. -/
theorem pathRelative_self (s : String) : pathRelative s s = "" := by
  simp only [pathRelative, commonPrefixLen_self, Nat.sub_self,
    List.replicate_zero, List.drop_length, List.nil_append]
  rfl

/-- C8: for every namespace `n`, the relative path from `n`'s directory to
itself is empty and `isLocalNamespace` holds there, including for the
root-scope sentinel `$ROOT$`. -/
theorem relativePath_self_empty (n : String) :
    (mkQualifier n false false).getRelativePath
        ((mkQualifier n false false).getDirectory) = ""
    ∧ (mkQualifier n false false).isLocalNamespace
        ((mkQualifier n false false).getDirectory) = true
    ∧ (mkQualifier ROOT_NAMESPACE_NAME false false).isLocalNamespace
        ((mkQualifier ROOT_NAMESPACE_NAME false false).getDirectory) = true := by
  refine ⟨pathRelative_self _, ?_, ?_⟩
  · simp [ModuleQualifier.isLocalNamespace, ModuleQualifier.getRelativePath,
      pathRelative_self]
  · simp [ModuleQualifier.isLocalNamespace, ModuleQualifier.getRelativePath,
      pathRelative_self]

/-- C6: `resolve` returns `undefined` exactly for the reserved property names
`texts`/`localized` or when the looked-up element lacks a (truthy)
association target; and whenever it does, the property type emitted by
`writeNamespace` falls back to the declaration's type text. -/
theorem resolve_none_characterisation (nsmq : ModuleQualifier)
    (fqEntity propName typeText : String) (cson : CSN) :
    (resolve fqEntity propName cson = none ↔
      propName = "texts" ∨ propName = "localized"
        ∨ jsTruthyStr ((lookupElement cson fqEntity propName).bind
            Element.target) = false)
    ∧ (resolve fqEntity propName cson = none →
        emittedPropertyType nsmq fqEntity propName cson typeText = typeText) := by
  constructor
  · by_cases hcond : (propName = "texts" ∨ propName = "localized"
        ∨ jsTruthyStr ((lookupElement cson fqEntity propName).bind
            Element.target) = false)
    · simp [resolve, hcond]
    · simp [resolve, hcond]
  · intro h
    simp [emittedPropertyType, h]

/-- C6 witness: the characterisation applied at the reserved property name
`texts` over the empty model. -/
theorem resolve_none_characterisation_witness :
    resolve "a.B" "texts" ⟨[]⟩ = none
    ∧ emittedPropertyType (mkQualifier "a" false false) "a.B" "texts" ⟨[]⟩
        "any" = "any" :=
  ⟨((resolve_none_characterisation (mkQualifier "a" false false) "a.B" "texts"
      "any" ⟨[]⟩).1).mpr (Or.inl rfl),
   (resolve_none_characterisation (mkQualifier "a" false false) "a.B" "texts"
      "any" ⟨[]⟩).2
     (((resolve_none_characterisation (mkQualifier "a" false false) "a.B"
        "texts" "any" ⟨[]⟩).1).mpr (Or.inl rfl))⟩

/-- With exactly one separator present, the final split segment is exactly
the part after the first separator. -/
theorem lastSeg_one_sep :
    ∀ (cs : List Char), (cs.filter isSepChar).length = 1 →
      lastSeg (splitPred isSepChar cs)
        = (cs.dropWhile (fun c => !(isSepChar c))).drop 1 := by
  intro cs
  induction cs with
  | nil => intro h; simp at h
  | cons c cs ih =>
    intro h
    by_cases hc : isSepChar c
    · have hfree : ∀ x ∈ cs, isSepChar x = false := by
        rw [List.filter_cons] at h
        simpa [hc] using h
      rw [List.dropWhile_cons]
      simp only [hc, Bool.not_true, Bool.false_eq_true, if_false, List.drop_succ_cons,
        List.drop_zero]
      simp [splitPred, hc, splitPred_no_sep _ _ hfree, lastSeg]
    · have hone : (cs.filter isSepChar).length = 1 := by
        rw [List.filter_cons] at h
        simpa [hc] using h
      rcases hs : splitPred isSepChar cs with _ | ⟨a, t⟩
      · exact absurd hs (splitPred_ne_nil _ cs)
      · have hlen : (splitPred isSepChar cs).length = 2 := by
          rw [splitPred_length, hone]
        rcases t with _ | ⟨b, ts⟩
        · rw [hs] at hlen; simp at hlen
        · have := ih hone
          rw [hs] at this
          rw [List.dropWhile_cons]
          simp only [hc, Bool.not_false, if_true]
          rw [← this]
          simp [splitPred, hc, hs, lastSeg]

/-- C7 counterexample: with two separators in the declaration text, the code
re-derives the part after the *last* `:`/`=`, not the part after the first as
the claim states. -/
theorem getTypeText_last_segment_counterexample :
    getTypeText none "x: a = b;" = "b"
    ∧ specFirstSplitType "x: a = b;" = "a = b"
    ∧ getTypeText none "x: a = b;" ≠ specFirstSplitType "x: a = b;" :=
  ⟨by decide, by decide, by decide⟩

/-- C7 amended: `getTypeText` is total by construction — a non-falsy
structural read is returned as-is, and otherwise the type is re-derived from
the declaration text by removing the first `;`, splitting on *all* `:`/`=`
occurrences and trimming the last segment; when the text has exactly one
separator this coincides with the part after the first separator, and the
textual stage always yields a string, so no further placeholder stage exists
in this variant. -/
theorem getTypeText_total_two_stage (r text : String) (hr : r ≠ "")
    (h : sepCount text = 1) :
    getTypeText (some r) text = r
    ∧ getTypeText none text = specFirstSplitType text := by
  refine ⟨by simp [getTypeText, hr], ?_⟩
  simp only [getTypeText, textDerivedType, specFirstSplitType]
  rw [lastSeg_one_sep (removeFirstChar ';' text.data) h]

/-- C7 witness: both stages at a concrete one-separator declaration. -/
theorem getTypeText_total_two_stage_witness :
    getTypeText (some "Bar") "foo: bar;" = "Bar"
    ∧ getTypeText none "foo: bar;" = specFirstSplitType "foo: bar;" :=
  getTypeText_total_two_stage "Bar" "foo: bar;" (by decide) (by decide)

/-- C9: `last xs` is `none` exactly on the empty list and returns the final
element otherwise (it never needs to raise an error, despite the declared
return type `T`). -/
theorem last_none_iff_empty {α : Type} (xs : List α) :
    last xs = xs.getLast? ∧ (last xs = none ↔ xs = []) := by
  have hmain : last xs = xs.getLast? := by
    cases xs with
    | nil => simp [last]
    | cons x xs =>
      have hi : ¬((((x :: xs).length : Int)) - 1 < 0) := by
        simp only [List.length_cons]; omega
      have ht : ((((x :: xs).length : Int)) - 1).toNat = xs.length := by
        simp only [List.length_cons]; omega
      simp only [last, if_neg hi, ht]
      exact getElem?_length_tail x xs
  refine ⟨hmain, ?_⟩
  rw [hmain]
  exact List.getLast?_eq_none_iff

/-- C10 counterexample: the two `takeRight` variants are not extensionally
equal, and it is false that both return `[]` for `n ≤ 0`: at `n = 0` the
unguarded variant returns the whole array. -/
theorem takeRight_variants_differ :
    takeRight ([1, 2, 3, 4] : List Nat) 0 = []
    ∧ takeRightUnguarded ([1, 2, 3, 4] : List Nat) 0 = [1, 2, 3, 4]
    ∧ takeRight ([1, 2, 3, 4] : List Nat) 0
        ≠ takeRightUnguarded ([1, 2, 3, 4] : List Nat) 0 := by
  refine ⟨by decide, by decide, by decide⟩

/-- C10 amended: the two variants agree for every `n > 0` (both evaluate
`xs.slice(-n)`); for `n ≤ 0` the guarded variant returns `[]` while the
unguarded variant returns `xs.slice(-n)`, which drops the first `-n`
elements (the whole array for `n = 0`). -/
theorem takeRight_guard_semantics {α : Type} (xs : List α) (n : Int) :
    (0 < n → takeRight xs n = takeRightUnguarded xs n)
    ∧ (n ≤ 0 → takeRight xs n = []
        ∧ takeRightUnguarded xs n = xs.drop (-n).toNat) := by
  constructor
  · intro h
    simp [takeRight, if_pos h, takeRightUnguarded]
  · intro h
    refine ⟨by simp [takeRight]; omega, ?_⟩
    simp only [takeRightUnguarded, jsSlice]
    have hneg : ¬(-n < 0) := by omega
    rw [if_neg hneg]
    rcases le_total (-n) ((xs.length : Int)) with hle | hge
    · rw [min_eq_left hle]
    · rw [min_eq_right hge]
      have h1 : ((xs.length : Int)).toNat = xs.length := Int.toNat_natCast _
      have h2 : xs.length ≤ (-n).toNat := by omega
      rw [h1, List.drop_length, List.drop_eq_nil_of_le h2]

/-- C10 witness for the amended statement, at concrete inputs discharging
both hypotheses. -/
theorem takeRight_guard_semantics_witness :
    takeRight ([1, 2, 3] : List Nat) 1 = takeRightUnguarded [1, 2, 3] 1
    ∧ takeRight ([1, 2, 3] : List Nat) 0 = []
    ∧ takeRightUnguarded ([1, 2, 3] : List Nat) 0
        = [1, 2, 3].drop ((-(0 : Int)).toNat) :=
  ⟨(takeRight_guard_semantics [1, 2, 3] 1).1 (by decide),
   ((takeRight_guard_semantics [1, 2, 3] 0).2 (by decide)).1,
   ((takeRight_guard_semantics [1, 2, 3] 0).2 (by decide)).2⟩

/-- If two paths resolve to the same segments, their relative path is empty. -/
theorem pathRelative_empty_of_resolve_eq (f t : String)
    (h : segResolve f = segResolve t) : pathRelative f t = "" := by
  simp only [pathRelative, h, commonPrefixLen_self, Nat.sub_self,
    List.replicate_zero, List.drop_length, List.nil_append]
  rfl

/-- Turning dots into slashes commutes with splitting: splitting the
dot-to-slash image on `/` is the dot-split (segment-wise image). -/
theorem splitPred_map_dotToSlash :
    ∀ (cs : List Char), '/' ∉ cs →
      splitPred (fun c => c = '/') (cs.map dotToSlash)
        = (splitPred (fun c => c = '.') cs).map (List.map dotToSlash) := by
  intro cs
  induction cs with
  | nil => intro _; rfl
  | cons c cs ih =>
    intro h
    have hc : c ≠ '/' := by
      intro e
      exact h (e ▸ List.mem_cons_self _ _)
    have ih2 := ih fun hm => h (List.mem_cons_of_mem _ hm)
    by_cases hdot : c = '.'
    · subst hdot
      simp only [List.map_cons, dotToSlash, if_pos rfl]
      simp [splitPred, ih2]
    · have hcs : dotToSlash c = c := by simp [dotToSlash, hdot]
      simp only [List.map_cons, hcs]
      rcases hs : splitPred (fun c => c = '.') cs with _ | ⟨a, t⟩
      · exact absurd hs (splitPred_ne_nil _ cs)
      · rw [hs] at ih2
        simp only [splitPred, hdot, hc, decide_eq_true_eq, if_false, ih2, hs,
          List.map_cons]
        simp [hc, hdot, hcs]

/-- String form: splitting a namespace's directory on `/` equals splitting
the namespace on `.`, when the namespace itself contains no slash. -/
theorem jsSplitChar_dir (s : String) (h : '/' ∉ s.data) :
    jsSplitChar '/' (⟨s.data.map dotToSlash⟩ : String) = jsSplitChar '.' s := by
  unfold jsSplitChar
  rw [show ((⟨s.data.map dotToSlash⟩ : String)).data = s.data.map dotToSlash from rfl]
  rw [splitPred_map_dotToSlash s.data h, List.map_map]
  apply List.map_congr_left
  intro l hl
  have hfree := splitPred_sep_free _ s.data l hl
  have : l.map dotToSlash = l := by
    conv_rhs => rw [← List.map_id l]
    apply List.map_congr_left
    intro c hc
    have h2 := hfree c hc
    simp only [decide_eq_false_iff_not] at h2
    simp [dotToSlash, h2]
  simp [this]

/-- Dot-split segments of a string are never `"."` or `".."`. -/
theorem jsSplitChar_dot_segments_not_special (s : String) :
    ∀ seg ∈ jsSplitChar '.' s, seg ≠ "." ∧ seg ≠ ".." := by
  intro seg hseg
  unfold jsSplitChar at hseg
  obtain ⟨l, hl, rfl⟩ := List.mem_map.mp hseg
  have hfree := splitPred_sep_free _ s.data l hl
  constructor
  · intro heq
    have hld : l = ".".data := congrArg String.data heq
    have hmem : '.' ∈ l := by rw [hld]; decide
    have := hfree '.' hmem
    simp at this
  · intro heq
    have hld : l = "..".data := congrArg String.data heq
    have hmem : '.' ∈ l := by rw [hld]; decide
    have := hfree '.' hmem
    simp at this

/-- Dot-split segments of a slash-free string are slash-free. -/
theorem jsSplitChar_dot_segments_slash_free (s : String) (h : '/' ∉ s.data) :
    ∀ seg ∈ jsSplitChar '.' s, ∀ c ∈ seg.data, c ≠ '/' := by
  intro seg hseg c hc
  unfold jsSplitChar at hseg
  obtain ⟨l, hl, rfl⟩ := List.mem_map.mp hseg
  intro e
  subst e
  exact h (splitPred_chars_sub _ s.data l hl _ hc)

/-- A string is non-empty iff its character list is. -/
theorem string_ne_empty_of_data {s : String} (h : s.data ≠ []) : s ≠ "" := by
  intro e
  exact h (by simp [e])

/-- The join of a non-empty list of non-empty segments is non-empty. -/
theorem joinWith_ne_empty (sep : Char) (parts : List String)
    (hne : parts ≠ []) (hmem : ∀ s ∈ parts, s ≠ "") :
    joinWith sep parts ≠ "" := by
  rcases parts with _ | ⟨p0, rest⟩
  · exact absurd rfl hne
  · apply string_ne_empty_of_data
    rcases rest with _ | ⟨p1, rs⟩
    · have h0 : p0 ≠ "" := hmem p0 (List.mem_cons_self _ _)
      have : p0.data ≠ [] := by
        intro e
        exact h0 (String.ext (by simp [e]))
      simpa [joinWith, joinSegs] using this
    · simp only [joinWith, List.map_cons, joinSegs]
      intro e
      have := congrArg List.length e
      simp at this

/-- The resolved segments of a namespace's directory are its non-empty
dot-segments. -/
theorem segResolve_dir (s : String) (h : '/' ∉ s.data) :
    segResolve (⟨s.data.map dotToSlash⟩ : String)
      = (jsSplitChar '.' s).filter (fun x => x ≠ "") := by
  unfold segResolve
  rw [jsSplitChar_dir s h]
  rw [resolveSegs_no_special (jsSplitChar '.' s)
    (jsSplitChar_dot_segments_not_special s) []]
  simp

/-- The resolved segments of `path.join(...nsName.split("."))` are likewise
the non-empty dot-segments of the namespace. -/
theorem segResolve_joined (s : String) (h : '/' ∉ s.data) :
    segResolve (pathJoin (jsSplitChar '.' s))
      = (jsSplitChar '.' s).filter (fun x => x ≠ "") := by
  have hfmem : ∀ x ∈ (jsSplitChar '.' s).filter (fun x => x ≠ ""), x ≠ "" := by
    intro x hx
    have := List.of_mem_filter hx
    simpa using this
  have hfsub : ∀ x ∈ (jsSplitChar '.' s).filter (fun x => x ≠ ""),
      x ∈ jsSplitChar '.' s := fun x hx => List.mem_of_mem_filter hx
  have hfns : ∀ x ∈ (jsSplitChar '.' s).filter (fun x => x ≠ ""),
      x ≠ "." ∧ x ≠ ".." := fun x hx =>
    jsSplitChar_dot_segments_not_special s x (hfsub x hx)
  have hffree : ∀ x ∈ (jsSplitChar '.' s).filter (fun x => x ≠ ""),
      ∀ c ∈ x.data, c ≠ '/' := fun x hx =>
    jsSplitChar_dot_segments_slash_free s h x (hfsub x hx)
  by_cases hemp : (jsSplitChar '.' s).filter (fun x => x ≠ "") = []
  · rw [hemp]
    have hj : pathJoin (jsSplitChar '.' s) = "." := by
      rw [pathJoin, hemp]
      rfl
    rw [hj]
    decide
  · have hjoined_ne :
        joinWith '/' ((jsSplitChar '.' s).filter (fun x => x ≠ "")) ≠ "" :=
      joinWith_ne_empty '/' _ hemp hfmem
    have hsplit_joined :
        jsSplitChar '/' (joinWith '/' ((jsSplitChar '.' s).filter (fun x => x ≠ "")))
          = (jsSplitChar '.' s).filter (fun x => x ≠ "") :=
      jsSplitChar_joinWith '/' _ hemp hffree
    have hnorm :
        pathNormalize (joinWith '/' ((jsSplitChar '.' s).filter (fun x => x ≠ "")))
          = joinWith '/' ((jsSplitChar '.' s).filter (fun x => x ≠ "")) := by
      rw [pathNormalize, hsplit_joined]
      rw [normSegsGo_plain _ (fun x hx => ⟨hfmem x hx, (hfns x hx).1, (hfns x hx).2⟩) []]
      rw [List.nil_append, if_neg hemp]
    have hpj : pathJoin (jsSplitChar '.' s)
        = joinWith '/' ((jsSplitChar '.' s).filter (fun x => x ≠ "")) := by
      rw [pathJoin]
      simp only [hjoined_ne, if_false]
      exact hnorm
    rw [hpj]
    unfold segResolve
    rw [hsplit_joined]
    rw [resolveSegs_no_special _ (fun x hx => hfns x hx) []]
    rw [List.filter_eq_self.mpr (fun a ha => by simpa using hfmem a ha)]
    simp

/-- The relative path from the joined namespace segments to the namespace's
directory is empty: a namespace is local to its own output directory. -/
theorem pathRelative_join_dir (s : String) (h : '/' ∉ s.data) :
    pathRelative (pathJoin (jsSplitChar '.' s))
      (⟨s.data.map dotToSlash⟩ : String) = "" :=
  pathRelative_empty_of_resolve_eq _ _
    (by rw [segResolve_joined s h, segResolve_dir s h])

/-- `[...new Set(l)]` yields pairwise-distinct elements. -/
theorem jsSetDedup_pairwise (l : List String) :
    (jsSetDedup l).Pairwise (· ≠ ·) := by
  suffices hgen : ∀ acc : List String, acc.Pairwise (· ≠ ·) →
      (l.foldl (fun acc x => if x ∈ acc then acc else acc ++ [x]) acc).Pairwise
        (· ≠ ·) from hgen [] List.Pairwise.nil
  induction l with
  | nil => intro acc hacc; exact hacc
  | cons x xs ih =>
    intro acc hacc
    simp only [List.foldl_cons]
    by_cases hx : x ∈ acc
    · simpa [hx] using ih acc hacc
    · simp only [hx, if_false]
      apply ih
      apply List.pairwise_append.mpr
      refine ⟨hacc, List.pairwise_singleton _ _, ?_⟩
      intro a ha b hb
      simp only [List.mem_singleton] at hb
      subst hb
      intro heq
      exact hx (heq ▸ ha)

/-- C5: for every namespace (whose name, a dotted identifier path, contains
no slash), the qualifiers returned by `getImportPaths` — with `rel` computed
as `path.join(...ns.getName().split("."))`, exactly as `writeNamespace`
does — carry pairwise-distinct namespace paths, and none of them names the
namespace being emitted: its own namespace resolves to the empty relative
path and is filtered out. -/
theorem getImportPaths_deduped_no_self (nsName : String) (ifaces : List Iface)
    (cson : CSN) (h : '/' ∉ nsName.data) :
    (getImportPaths nsName (pathJoin (jsSplitChar '.' nsName)) ifaces cson).Pairwise
      (fun a b => a.module ≠ b.module)
    ∧ ∀ q ∈ getImportPaths nsName (pathJoin (jsSplitChar '.' nsName)) ifaces cson,
        q.module ≠ nsName := by
  constructor
  · apply List.Pairwise.sublist (List.filter_sublist _)
    rw [List.pairwise_map]
    apply (jsSetDedup_pairwise (collectNamespaces nsName ifaces cson)).imp
    intro a b hab
    simpa [mkQualifier] using hab
  · intro q hq heq
    rw [getImportPaths, List.mem_filter] at hq
    obtain ⟨hmem, hloc⟩ := hq
    have hlocal : q.isLocalNamespace (pathJoin (jsSplitChar '.' nsName)) = true := by
      simp only [ModuleQualifier.isLocalNamespace, ModuleQualifier.getRelativePath,
        ModuleQualifier.getDirectory, heq]
      simp [pathRelative_join_dir nsName h]
    rw [hlocal] at hloc
    simp at hloc

/-- C5 witness: a namespace with one interface extending a local and a
foreign type; the computed import list is the lone foreign namespace. -/
theorem getImportPaths_deduped_no_self_witness :
    (getImportPaths "a.b" (pathJoin (jsSplitChar '.' "a.b"))
        [⟨"I", ["a.b.X", "c.Y"], ["p"]⟩] ⟨[]⟩).Pairwise
      (fun a b => a.module ≠ b.module)
    ∧ ∀ q ∈ getImportPaths "a.b" (pathJoin (jsSplitChar '.' "a.b"))
        [⟨"I", ["a.b.X", "c.Y"], ["p"]⟩] ⟨[]⟩, q.module ≠ "a.b" :=
  getImportPaths_deduped_no_self "a.b" [⟨"I", ["a.b.X", "c.Y"], ["p"]⟩] ⟨[]⟩
    (by decide)
